/-
Verification of the tabulon scene-graph, DXF-loading and picking code.

Shallow embedding notes:
* `f64` values that only flow through field operations are modelled as `ℚ`
  (the claims under study never depend on rounding); transcendental libm
  functions (`atan`, `sin`, `cos`, `atan2`, `hypot`) are taken as explicit
  oracle parameters of the embedded functions, so every definition stays
  computable.
* `NonZeroU32` transform-handle payloads are modelled as naturals below 2^32:
  `register_transform` truncates the table length with `% 2^32` exactly as the
  source's `as u32` cast does, and the `least` accumulator of
  `update_transforms` starts at `NonZeroU32::MAX` = 4294967295, which collides
  with the largest issuable payload just as in the source.
* Rust `Vec` indexing that panics on an out-of-range index is modelled with
  `List.getD` / `List.set`, which are total; the reachable-state invariants
  proved below keep every index used by the source in bounds, so the
  defaulted branch is never consulted.
-/
import Mathlib

/-- kurbo `Affine`: six coefficients `[a, b, c, d, e, f]` of an affine map.
The `f64` entries are modelled as rationals. -/
structure Affine where
  c0 : ℚ
  c1 : ℚ
  c2 : ℚ
  c3 : ℚ
  c4 : ℚ
  c5 : ℚ
deriving DecidableEq

/-- Rust `Affine::IDENTITY`, which is also `Affine::default()`. -/
def Affine.id : Affine := ⟨1, 0, 0, 1, 0, 0⟩

instance : Inhabited Affine := ⟨Affine.id⟩

/-- kurbo `Mul for Affine` (matrix composition, written exactly as in kurbo). -/
def Affine.mul (x y : Affine) : Affine :=
  ⟨x.c0 * y.c0 + x.c2 * y.c1,
   x.c1 * y.c0 + x.c3 * y.c1,
   x.c0 * y.c2 + x.c2 * y.c3,
   x.c1 * y.c2 + x.c3 * y.c3,
   x.c0 * y.c4 + x.c2 * y.c5 + x.c4,
   x.c1 * y.c4 + x.c3 * y.c5 + x.c5⟩

instance : Mul Affine := ⟨Affine.mul⟩

/-- Rust `TransformHandle(Option<NonZeroU32>)`; `none` is the default (root) handle. -/
structure TransformHandle where
  val : Option ℕ
deriving DecidableEq

/-- The root handle, `TransformHandle::default()`. -/
def TransformHandle.root : TransformHandle := ⟨none⟩

instance : Inhabited TransformHandle := ⟨TransformHandle.root⟩

/-- Rust `usize::from(TransformHandle)`: `h.0.map_or(0, |x| x.get())`. -/
def TransformHandle.toIdx (h : TransformHandle) : ℕ :=
  match h.val with
  | none => 0
  | some i => i

/-- Rust `PaintHandle(u32)`. -/
structure PaintHandle where
  idx : ℕ
deriving DecidableEq

/-- Transform record for deriving final transforms (`ManagedTransform`).
`local` is a Lean keyword, hence the field name `local_`. -/
structure ManagedTransform where
  parent : TransformHandle
  local_ : Affine
deriving DecidableEq

instance : Inhabited ManagedTransform := ⟨⟨TransformHandle.root, Affine.id⟩⟩

/-- kurbo `Stroke`; only the width is relevant to the code under study
(`Stroke::new(w)` sets the width and leaves every option at its default). -/
structure Stroke where
  width : ℚ
deriving DecidableEq

instance : Inhabited Stroke := ⟨⟨1⟩⟩

/-- peniko `Brush` (external); its contents are irrelevant to the bag
operations modelled here, an opaque tag stands in for them. -/
structure Brush where
  tag : ℕ
deriving DecidableEq

/-- Rust `FatPaint`: paint style record stored in the bag palette. -/
structure FatPaint where
  stroke : Stroke
  stroke_paint : Option Brush
  fill_paint : Option Brush
deriving DecidableEq

instance : Inhabited FatPaint := ⟨⟨⟨1⟩, none, none⟩⟩

/-- Rust `GraphicsItem`: a `FatShape` or `FatText`; the payloads play no role in
the transform/palette operations under study and are modelled opaquely. -/
inductive GraphicsItem where
  | fatShape (data : ℕ)
  | fatText (data : ℕ)
deriving DecidableEq

/-- Rust `GraphicsBag`: items, cached final transforms, managed transform records,
and the paint palette. -/
structure GraphicsBag where
  items : List GraphicsItem
  final_transforms : List Affine
  managed_transforms : List ManagedTransform
  palette : List FatPaint
deriving DecidableEq

/-- Rust `GraphicsBag::default()`: root transform only. -/
def GraphicsBag.default : GraphicsBag :=
  { items := []
    final_transforms := [Affine.id]
    managed_transforms := [⟨TransformHandle.root, Affine.id⟩]
    palette := [] }

/-- Slot index of the parent of the node in slot `i`. -/
def parentIdx (ms : List ManagedTransform) (i : ℕ) : ℕ :=
  ((ms.getD i default).parent).toIdx

/-- Local transform of the node in slot `i`. -/
def localAt (ms : List ManagedTransform) (i : ℕ) : Affine :=
  (ms.getD i default).local_

/-- Final (world) transform cached for slot `i`. -/
def finalAt (fs : List Affine) (i : ℕ) : Affine :=
  fs.getD i Affine.id

/-- One iteration of the `finalize_transforms` loop body at index `i`:
`final[i] = if i == 0 { local } else { final[parent] * local }`. -/
def finalizeStep (ms : List ManagedTransform) (fs : List Affine) (i : ℕ) :
    List Affine :=
  fs.set i (if i = 0 then localAt ms i else finalAt fs (parentIdx ms i) * localAt ms i)

/-- Structural runner for the finalization loop: perform `n` successive
`finalizeStep`s starting at index `i`. -/
def finalizeGo (ms : List ManagedTransform) : ℕ → List Affine → ℕ → List Affine
  | 0, fs, _ => fs
  | n + 1, fs, i => finalizeGo ms n (finalizeStep ms fs i) (i + 1)

/-- The `for i in usize::from(handle)..self.managed_transforms.len()` loop of
`GraphicsBag::finalize_transforms`, from index `i` upward. -/
def finalizeAux (ms : List ManagedTransform) (fs : List Affine) (i : ℕ) :
    List Affine :=
  finalizeGo ms (ms.length - i) fs i

/-- Rust `GraphicsBag::finalize_transforms(handle)`. -/
def GraphicsBag.finalize_transforms (bag : GraphicsBag) (handle : TransformHandle) :
    GraphicsBag :=
  { bag with
      final_transforms := finalizeAux bag.managed_transforms bag.final_transforms handle.toIdx }

/-- Rust `self.managed_transforms[i].local = l` (panicking index modelled by a
no-op out of range; in-bounds in every reachable use). -/
def setLocal (ms : List ManagedTransform) (i : ℕ) (l : Affine) :
    List ManagedTransform :=
  ms.set i ⟨(ms.getD i default).parent, l⟩

/-- Rust `GraphicsBag::register_transform(parent, local)`: appends a managed record
and its eagerly finalized world transform, returning the new handle
`NonZeroU32::new(len as u32)` — the length truncated to `u32` (hence `% 2^32`),
and `none` exactly when that truncation is zero, so the handle wraps around to
the root once 2^32 transforms have been registered. -/
def GraphicsBag.register_transform (bag : GraphicsBag) (parent : TransformHandle)
    (l : Affine) : GraphicsBag × TransformHandle :=
  let n := bag.managed_transforms.length
  let handle : TransformHandle :=
    ⟨if n % 4294967296 = 0 then none else some (n % 4294967296)⟩
  (⟨bag.items,
    bag.final_transforms ++ [finalAt bag.final_transforms parent.toIdx * l],
    bag.managed_transforms ++ [⟨parent, l⟩],
    bag.palette⟩,
   handle)

/-- Rust `GraphicsBag::update_transform(handle, local)`. -/
def GraphicsBag.update_transform (bag : GraphicsBag) (handle : TransformHandle)
    (l : Affine) : GraphicsBag :=
  let ms := setLocal bag.managed_transforms handle.toIdx l
  { bag with
      managed_transforms := ms
      final_transforms := finalizeAux ms bag.final_transforms handle.toIdx }

/-- One `for (k, v) in pairs` iteration of `update_transforms` on the state
(updated records, the `includes_root` flag, `least`). `least` starts at
`NonZeroU32::MAX` = 4294967295 and is lowered by the payload of every
non-root handle; as in the source, the payload 4294967295 itself (slot
2^32 - 1 of a full-width bag) is indistinguishable from the sentinel. -/
def updatePairsStep :
    List ManagedTransform × Bool × ℕ → TransformHandle × Affine →
      List ManagedTransform × Bool × ℕ
  | (ms, ir, least), (k, v) =>
      match k.val with
      | some i => (setLocal ms k.toIdx v, ir, min least i)
      | none => (setLocal ms k.toIdx v, true, least)

/-- The tail of `update_transforms` after the replacement loop: return early
while `least` still holds the `NonZeroU32::MAX` sentinel value, otherwise
finalize once from the minimum affected slot, or from the root if
`includes_root`. -/
def updateTransformsWith (bag : GraphicsBag)
    (st : List ManagedTransform × Bool × ℕ) : GraphicsBag :=
  if st.2.2 = 4294967295 then { bag with managed_transforms := st.1 }
  else
    { bag with
        managed_transforms := st.1
        final_transforms :=
          finalizeAux st.1 bag.final_transforms (if st.2.1 then 0 else st.2.2) }

/-- Rust `GraphicsBag::update_transforms(pairs)`: apply all local replacements,
then — unless `least` still equals the sentinel value — finalize once. -/
def GraphicsBag.update_transforms (bag : GraphicsBag)
    (pairs : List (TransformHandle × Affine)) : GraphicsBag :=
  updateTransformsWith bag
    (pairs.foldl updatePairsStep (bag.managed_transforms, false, 4294967295))

/-- Rust `GraphicsBag::register_paint(paint)`. -/
def GraphicsBag.register_paint (bag : GraphicsBag) (paint : FatPaint) :
    GraphicsBag × PaintHandle :=
  ({ bag with palette := bag.palette ++ [paint] }, ⟨bag.palette.length⟩)


/-! ### Basic facts about the list operations used by the bag -/

lemma finalAt_set_self (fs : List Affine) (i : ℕ) (a : Affine) (h : i < fs.length) :
    finalAt (fs.set i a) i = a := by
  simp [finalAt, List.getD_eq_getElem?_getD, List.getElem?_set_self h]

lemma finalAt_set_ne (fs : List Affine) (i j : ℕ) (a : Affine) (h : i ≠ j) :
    finalAt (fs.set i a) j = finalAt fs j := by
  simp [finalAt, List.getD_eq_getElem?_getD, List.getElem?_set_ne h]

lemma finalAt_append_left (fs : List Affine) (tl : List Affine) (j : ℕ)
    (h : j < fs.length) : finalAt (fs ++ tl) j = finalAt fs j := by
  simp [finalAt, List.getD_eq_getElem?_getD, List.getElem?_append_left h]

lemma finalAt_concat_length (fs : List Affine) (a : Affine) :
    finalAt (fs ++ [a]) fs.length = a := by
  simp [finalAt, List.getD_eq_getElem?_getD, List.getElem?_concat_length]

lemma length_setLocal (ms : List ManagedTransform) (i : ℕ) (l : Affine) :
    (setLocal ms i l).length = ms.length := by
  simp [setLocal]

lemma parentIdx_setLocal (ms : List ManagedTransform) (i : ℕ) (l : Affine) (j : ℕ) :
    parentIdx (setLocal ms i l) j = parentIdx ms j := by
  rcases eq_or_ne i j with rfl | hne
  · by_cases h : i < ms.length
    · simp [parentIdx, setLocal, List.getD_eq_getElem?_getD, List.getElem?_set_self h]
    · simp [parentIdx, setLocal, List.set_eq_of_length_le (Nat.le_of_not_lt h)]
  · simp [parentIdx, setLocal, List.getD_eq_getElem?_getD, List.getElem?_set_ne hne]

lemma localAt_setLocal_ne (ms : List ManagedTransform) (i j : ℕ) (l : Affine)
    (h : i ≠ j) : localAt (setLocal ms i l) j = localAt ms j := by
  simp [localAt, setLocal, List.getD_eq_getElem?_getD, List.getElem?_set_ne h]

lemma localAt_setLocal_self (ms : List ManagedTransform) (i : ℕ) (l : Affine)
    (h : i < ms.length) : localAt (setLocal ms i l) i = l := by
  simp [localAt, setLocal, List.getD_eq_getElem?_getD, List.getElem?_set_self h]

lemma parentIdx_append_left (ms tl : List ManagedTransform) (j : ℕ)
    (h : j < ms.length) : parentIdx (ms ++ tl) j = parentIdx ms j := by
  simp [parentIdx, List.getD_eq_getElem?_getD, List.getElem?_append_left h]

lemma parentIdx_concat_length (ms : List ManagedTransform) (m : ManagedTransform) :
    parentIdx (ms ++ [m]) ms.length = m.parent.toIdx := by
  simp [parentIdx, List.getD_eq_getElem?_getD, List.getElem?_concat_length]

lemma localAt_append_left (ms tl : List ManagedTransform) (j : ℕ)
    (h : j < ms.length) : localAt (ms ++ tl) j = localAt ms j := by
  simp [localAt, List.getD_eq_getElem?_getD, List.getElem?_append_left h]

lemma localAt_concat_length (ms : List ManagedTransform) (m : ManagedTransform) :
    localAt (ms ++ [m]) ms.length = m.local_ := by
  simp [localAt, List.getD_eq_getElem?_getD, List.getElem?_concat_length]

/-! ### Facts about the finalization loop -/

lemma finalizeGo_length (ms : List ManagedTransform) :
    ∀ (n : ℕ) (fs : List Affine) (i : ℕ), (finalizeGo ms n fs i).length = fs.length := by
  intro n
  induction n with
  | zero => intro fs i; rfl
  | succ n ih => intro fs i; simp [finalizeGo, ih, finalizeStep]

lemma finalizeGo_lt_start (ms : List ManagedTransform) :
    ∀ (n : ℕ) (fs : List Affine) (i j : ℕ), j < i →
      finalAt (finalizeGo ms n fs i) j = finalAt fs j := by
  intro n
  induction n with
  | zero => intro fs i j _; rfl
  | succ n ih =>
      intro fs i j hj
      rw [finalizeGo, ih _ _ _ (Nat.lt_succ_of_lt hj)]
      exact finalAt_set_ne _ _ _ _ (Nat.ne_of_gt hj)

lemma finalizeAux_length (ms : List ManagedTransform) (fs : List Affine) (i : ℕ) :
    (finalizeAux ms fs i).length = fs.length :=
  finalizeGo_length ms _ fs i

/-- Main correctness fact of the finalization loop: starting from a state whose
slots below `i` already satisfy the parent-composition equation, running the
loop from `i` establishes the equation at every non-root slot. -/
lemma finalizeGo_inv (ms : List ManagedTransform)
    (hpar : ∀ k, 1 ≤ k → k < ms.length → parentIdx ms k < k) :
    ∀ (n : ℕ) (fs : List Affine) (i : ℕ), n = ms.length - i →
      fs.length = ms.length →
      (∀ j, 1 ≤ j → j < i → j < ms.length →
        finalAt fs j = finalAt fs (parentIdx ms j) * localAt ms j) →
      ∀ j, 1 ≤ j → j < ms.length →
        finalAt (finalizeGo ms n fs i) j
          = finalAt (finalizeGo ms n fs i) (parentIdx ms j) * localAt ms j := by
  intro n
  induction n with
  | zero =>
      intro fs i hn hlen hpre j hj1 hjlen
      exact hpre j hj1 (by omega) hjlen
  | succ n ih =>
      intro fs i hn hlen hpre j hj1 hjlen
      have hilen : i < ms.length := by omega
      rw [finalizeGo]
      refine ih (finalizeStep ms fs i) (i + 1) (by omega) (by simp [finalizeStep, hlen]) ?_ j hj1 hjlen
      intro k hk1 hki hklen
      rcases Nat.lt_or_ge k i with hk | hk
      · have hpk : parentIdx ms k < k := hpar k hk1 hklen
        have h1 : finalAt (finalizeStep ms fs i) k = finalAt fs k := by
          unfold finalizeStep
          exact finalAt_set_ne _ _ _ _ (by omega)
        have h2 : finalAt (finalizeStep ms fs i) (parentIdx ms k) = finalAt fs (parentIdx ms k) := by
          unfold finalizeStep
          exact finalAt_set_ne _ _ _ _ (by omega)
        rw [h1, h2]
        exact hpre k hk1 hk hklen
      · have hki' : k = i := by omega
        subst hki'
        have hk0 : k ≠ 0 := by omega
        have hpk : parentIdx ms k < k := hpar k hk1 hklen
        have h1 : finalAt (finalizeStep ms fs k) k
            = finalAt fs (parentIdx ms k) * localAt ms k := by
          unfold finalizeStep
          rw [if_neg hk0]
          exact finalAt_set_self _ _ _ (by omega)
        have h2 : finalAt (finalizeStep ms fs k) (parentIdx ms k) = finalAt fs (parentIdx ms k) := by
          unfold finalizeStep
          exact finalAt_set_ne _ _ _ _ (by omega)
        rw [h1, h2]

lemma finalizeAux_inv (ms : List ManagedTransform)
    (hpar : ∀ k, 1 ≤ k → k < ms.length → parentIdx ms k < k)
    (fs : List Affine) (i : ℕ) (hlen : fs.length = ms.length)
    (hpre : ∀ j, 1 ≤ j → j < i → j < ms.length →
      finalAt fs j = finalAt fs (parentIdx ms j) * localAt ms j) :
    ∀ j, 1 ≤ j → j < ms.length →
      finalAt (finalizeAux ms fs i) j
        = finalAt (finalizeAux ms fs i) (parentIdx ms j) * localAt ms j :=
  finalizeGo_inv ms hpar _ fs i rfl hlen hpre

/-! ### Reachable bag states and their invariants -/

/-- A transform handle the bag has issued: the root handle, or a payload that
some past registration produced. Registering at table length `p` (with
`1 ≤ p < len`) yields payload `p % 2^32` when nonzero, so the issued non-root
payloads are exactly the `i` with `1 ≤ i`, `i < len` and `i < 2^32`. -/
def IssuedHandle (bag : GraphicsBag) (h : TransformHandle) : Prop :=
  match h.val with
  | none => True
  | some i => 1 ≤ i ∧ i < bag.managed_transforms.length ∧ i < 4294967296

instance (bag : GraphicsBag) (h : TransformHandle) : Decidable (IssuedHandle bag h) :=
  match h with
  | ⟨none⟩ => isTrue trivial
  | ⟨some i⟩ => inferInstanceAs
      (Decidable (1 ≤ i ∧ i < bag.managed_transforms.length ∧ i < 4294967296))

/-- Bags reachable from `GraphicsBag::default()` by any sequence of
`register_transform`, `update_transform` and `update_transforms` calls
whose handles were issued by the same bag. -/
inductive Reachable : GraphicsBag → Prop where
  | init : Reachable GraphicsBag.default
  | register {bag : GraphicsBag} (parent : TransformHandle) (l : Affine) :
      Reachable bag → IssuedHandle bag parent →
      Reachable (bag.register_transform parent l).1
  | update {bag : GraphicsBag} (h : TransformHandle) (l : Affine) :
      Reachable bag → IssuedHandle bag h →
      Reachable (bag.update_transform h l)
  | updateBatch {bag : GraphicsBag} (pairs : List (TransformHandle × Affine)) :
      Reachable bag → (∀ kv ∈ pairs, IssuedHandle bag kv.1) →
      Reachable (bag.update_transforms pairs)

/-- Structural invariants of a bag's transform table. -/
structure BagInv (bag : GraphicsBag) : Prop where
  len_eq : bag.final_transforms.length = bag.managed_transforms.length
  len_pos : 1 ≤ bag.managed_transforms.length
  parent_lt : ∀ i, 1 ≤ i → i < bag.managed_transforms.length →
      parentIdx bag.managed_transforms i < i
  finalized : ∀ i, 1 ≤ i → i < bag.managed_transforms.length →
      finalAt bag.final_transforms i
        = finalAt bag.final_transforms (parentIdx bag.managed_transforms i)
          * localAt bag.managed_transforms i

lemma issued_toIdx_lt {bag : GraphicsBag} {h : TransformHandle}
    (hlen : 1 ≤ bag.managed_transforms.length) (hi : IssuedHandle bag h) :
    h.toIdx < bag.managed_transforms.length := by
  rcases h with ⟨hv⟩
  cases hv with
  | none => simpa [TransformHandle.toIdx] using hlen
  | some i => exact hi.2.1

lemma bagInv_default : BagInv GraphicsBag.default := by
  refine ⟨rfl, by simp [GraphicsBag.default], ?_, ?_⟩ <;>
    · intro i h1 h2
      simp [GraphicsBag.default] at h2
      omega

lemma bagInv_register {bag : GraphicsBag} (hI : BagInv bag)
    (parent : TransformHandle) (l : Affine) (hp : IssuedHandle bag parent) :
    BagInv (bag.register_transform parent l).1 := by
  obtain ⟨hlen, hpos, hpar, hfin⟩ := hI
  have hplt : parent.toIdx < bag.managed_transforms.length := issued_toIdx_lt hpos hp
  set L := bag.managed_transforms.length with hL
  refine ⟨?_, ?_, ?_, ?_⟩
  · simp [GraphicsBag.register_transform, hlen]
  · simp [GraphicsBag.register_transform]
  · intro i h1 h2
    simp only [GraphicsBag.register_transform, List.length_append, List.length_cons,
      List.length_nil] at h2
    rcases Nat.lt_or_ge i L with hi | hi
    · rw [show (bag.register_transform parent l).1.managed_transforms
          = bag.managed_transforms ++ [⟨parent, l⟩] from rfl,
        parentIdx_append_left _ _ _ hi]
      exact hpar i h1 hi
    · have : i = L := by omega
      subst this
      rw [show (bag.register_transform parent l).1.managed_transforms
          = bag.managed_transforms ++ [⟨parent, l⟩] from rfl,
        parentIdx_concat_length]
      exact hplt
  · intro i h1 h2
    simp only [GraphicsBag.register_transform, List.length_append, List.length_cons,
      List.length_nil] at h2
    have hms : (bag.register_transform parent l).1.managed_transforms
        = bag.managed_transforms ++ [⟨parent, l⟩] := rfl
    have hfs : (bag.register_transform parent l).1.final_transforms
        = bag.final_transforms ++ [finalAt bag.final_transforms parent.toIdx * l] := rfl
    rcases Nat.lt_or_ge i L with hi | hi
    · have hpi : parentIdx bag.managed_transforms i < i := hpar i h1 hi
      rw [hms, hfs, parentIdx_append_left _ _ _ hi, localAt_append_left _ _ _ hi,
        finalAt_append_left _ _ _ (by omega), finalAt_append_left _ _ _ (by omega)]
      exact hfin i h1 hi
    · have : i = L := by omega
      subst this
      rw [hms, hfs, parentIdx_concat_length, localAt_concat_length]
      have hred1 : (⟨parent, l⟩ : ManagedTransform).parent.toIdx = parent.toIdx := rfl
      have hred2 : (⟨parent, l⟩ : ManagedTransform).local_ = l := rfl
      rw [hred1, hred2]
      have hfl : bag.final_transforms.length = L := hlen
      rw [← hfl, finalAt_concat_length, finalAt_append_left _ _ _ (by omega)]

lemma bagInv_update {bag : GraphicsBag} (hI : BagInv bag)
    (h : TransformHandle) (l : Affine) :
    BagInv (bag.update_transform h l) := by
  obtain ⟨hlen, hpos, hpar, hfin⟩ := hI
  have hms : (bag.update_transform h l).managed_transforms
      = setLocal bag.managed_transforms h.toIdx l := rfl
  have hfs : (bag.update_transform h l).final_transforms
      = finalizeAux (setLocal bag.managed_transforms h.toIdx l)
          bag.final_transforms h.toIdx := rfl
  have hmslen : (setLocal bag.managed_transforms h.toIdx l).length
      = bag.managed_transforms.length := length_setLocal _ _ _
  have hpar' : ∀ k, 1 ≤ k → k < (setLocal bag.managed_transforms h.toIdx l).length →
      parentIdx (setLocal bag.managed_transforms h.toIdx l) k < k := by
    intro k hk1 hk2
    rw [parentIdx_setLocal]
    exact hpar k hk1 (by omega)
  refine ⟨?_, ?_, ?_, ?_⟩
  · rw [hfs, hms, finalizeAux_length, hlen, hmslen]
  · rw [hms, hmslen]; exact hpos
  · intro i h1 h2
    rw [hms] at h2 ⊢
    exact hpar' i h1 h2
  · intro i h1 h2
    rw [hms] at h2
    rw [hms, hfs]
    have := finalizeAux_inv (setLocal bag.managed_transforms h.toIdx l) hpar'
      bag.final_transforms h.toIdx (by omega) ?_ i h1 h2
    · exact this
    · intro j hj1 hji hjlen
      rw [parentIdx_setLocal, localAt_setLocal_ne _ _ _ _ (by omega)]
      exact hfin j hj1 (by omega)


/-- Per-slot guarantee maintained by the replacement loop of
`update_transforms`: every non-root local below the running `least` value is
still the original one (initially `least` is the sentinel 4294967295, so this
covers every slot of a bag narrower than 2^32). -/
lemma updatePairs_foldl_inv (ms0 : List ManagedTransform) :
    ∀ (ps : List (TransformHandle × Affine))
      (st : List ManagedTransform × Bool × ℕ),
      st.1.length = ms0.length →
      (∀ j, parentIdx st.1 j = parentIdx ms0 j) →
      (∀ j, 1 ≤ j → j < st.2.2 → localAt st.1 j = localAt ms0 j) →
      (ps.foldl updatePairsStep st).1.length = ms0.length ∧
      (∀ j, parentIdx (ps.foldl updatePairsStep st).1 j = parentIdx ms0 j) ∧
      (∀ j, 1 ≤ j → j < (ps.foldl updatePairsStep st).2.2 →
        localAt (ps.foldl updatePairsStep st).1 j = localAt ms0 j) := by
  intro ps
  induction ps with
  | nil => intro st h1 h2 h3; exact ⟨h1, h2, h3⟩
  | cons kv rest ih =>
      intro st h1 h2 h3
      obtain ⟨k, v⟩ := kv
      obtain ⟨sms, sir, sleast⟩ := st
      obtain ⟨kval⟩ := k
      simp only [List.foldl_cons]
      rcases kval with _ | i
      · refine ih _ ?_ ?_ ?_
        · simpa [updatePairsStep, length_setLocal] using h1
        · intro j
          simpa [updatePairsStep, parentIdx_setLocal] using h2 j
        · intro j hj hjl
          simp only at h3
          simp only [updatePairsStep] at hjl ⊢
          have hidx : TransformHandle.toIdx ⟨none⟩ = 0 := rfl
          rw [hidx, localAt_setLocal_ne _ _ _ _ (by omega)]
          exact h3 j hj hjl
      · refine ih _ ?_ ?_ ?_
        · simpa [updatePairsStep, length_setLocal] using h1
        · intro j
          simpa [updatePairsStep, parentIdx_setLocal] using h2 j
        · intro j hj hjl
          simp only at h3
          simp only [updatePairsStep] at hjl ⊢
          have hidx : TransformHandle.toIdx ⟨some i⟩ = i := rfl
          rw [hidx, localAt_setLocal_ne _ _ _ _ (by omega)]
          exact h3 j hj (by omega)

lemma bagInv_updateBatch {bag : GraphicsBag} (hI : BagInv bag)
    (hlen32 : bag.managed_transforms.length < 4294967296)
    (pairs : List (TransformHandle × Affine)) :
    BagInv (bag.update_transforms pairs) := by
  obtain ⟨hlen, hpos, hpar, hfin⟩ := hI
  obtain ⟨f1, f2, f3⟩ := updatePairs_foldl_inv bag.managed_transforms pairs
    (bag.managed_transforms, false, 4294967295) rfl (fun j => rfl)
    (fun j _ _ => rfl)
  rcases hst : pairs.foldl updatePairsStep (bag.managed_transforms, false, 4294967295)
    with ⟨ms2, ir, least⟩
  rw [hst] at f1 f2 f3
  simp only at f1 f2 f3
  have hbag : bag.update_transforms pairs = updateTransformsWith bag (ms2, ir, least) := by
    unfold GraphicsBag.update_transforms
    rw [hst]
  have hpar2 : ∀ k, 1 ≤ k → k < ms2.length → parentIdx ms2 k < k := by
    intro k hk1 hk2
    rw [f2 k]
    exact hpar k hk1 (by omega)
  rw [hbag]
  unfold updateTransformsWith
  by_cases hl : least = 4294967295
  · rw [if_pos hl]
    refine ⟨by simpa [f1] using hlen, by simpa [f1] using hpos, ?_, ?_⟩
    · intro i h1 h2
      simp only at h2 ⊢
      exact hpar2 i h1 h2
    · intro i h1 h2
      simp only at h2 ⊢
      have hloc : localAt ms2 i = localAt bag.managed_transforms i := by
        refine f3 i h1 ?_
        omega
      rw [f2 i, hloc]
      exact hfin i h1 (by omega)
  · rw [if_neg hl]
    refine ⟨by simp [finalizeAux_length, f1, hlen], by simpa [f1] using hpos, ?_, ?_⟩
    · intro i h1 h2
      simp only at h2 ⊢
      exact hpar2 i h1 h2
    · intro i h1 h2
      simp only at h2 ⊢
      refine finalizeAux_inv ms2 hpar2 bag.final_transforms _ (by omega) ?_ i h1 h2
      intro j hj1 hjs hjlen
      rcases ir with _ | _
      · simp only [Bool.false_eq_true, if_false] at hjs
        have hloc : localAt ms2 j = localAt bag.managed_transforms j := f3 j hj1 hjs
        rw [f2 j, hloc]
        exact hfin j hj1 (by omega)
      · simp only [if_pos] at hjs
        omega

lemma update_transforms_managed_length (bag : GraphicsBag)
    (pairs : List (TransformHandle × Affine)) :
    (bag.update_transforms pairs).managed_transforms.length
      = bag.managed_transforms.length := by
  obtain ⟨f1, _, _⟩ := updatePairs_foldl_inv bag.managed_transforms pairs
    (bag.managed_transforms, false, 4294967295) rfl (fun j => rfl)
    (fun j _ _ => rfl)
  rcases hst : pairs.foldl updatePairsStep (bag.managed_transforms, false, 4294967295)
    with ⟨ms2, ir, least⟩
  rw [hst] at f1
  simp only at f1
  unfold GraphicsBag.update_transforms
  rw [hst]
  unfold updateTransformsWith
  split_ifs <;> simpa using f1

/-- Every reachable bag narrower than the `u32` wrap point satisfies the
structural invariants (the width bound holds of every earlier state along the
call sequence because the transform table only ever grows). -/
lemma reachable_bagInv {bag : GraphicsBag} (h : Reachable bag) :
    bag.managed_transforms.length < 4294967296 → BagInv bag := by
  induction h with
  | init => intro _; exact bagInv_default
  | @register bag parent l hr hp ih =>
      intro hlen32
      have hr1 : (bag.register_transform parent l).1.managed_transforms.length
          = bag.managed_transforms.length + 1 := by
        show (bag.managed_transforms ++ [(⟨parent, l⟩ : ManagedTransform)]).length = _
        simp
      exact bagInv_register (ih (by omega)) parent l hp
  | @update bag hdl l hr hp ih =>
      intro hlen32
      have hr1 : (bag.update_transform hdl l).managed_transforms.length
          = bag.managed_transforms.length := by
        show (setLocal bag.managed_transforms hdl.toIdx l).length = _
        exact length_setLocal _ _ _
      exact bagInv_update (ih (by omega)) hdl l
  | @updateBatch bag pairs hr hp ih =>
      intro hlen32
      have hr1 := update_transforms_managed_length bag pairs
      exact bagInv_updateBatch (ih (by omega)) (by omega) pairs

/-- C1 (amended: restricted to non-root nodes, in bags holding fewer than
2^32 transforms): in every such `GraphicsBag` reachable by any sequence of
`register_transform`, `update_transform` and `update_transforms` calls with
handles issued by that bag, every non-root transform node's cached world
transform equals its parent's world transform times its own local transform —
after single and batched updates alike. Both restrictions are necessary: the
root fails the equation (see the counterexample below), and on a 2^32-slot
bag the handle payload `u32::MAX` collides with the batch sentinel (see
`sentinel_slot_batch_leaves_stale_world_transform`). -/
theorem world_transform_finalization (bag : GraphicsBag) (hR : Reachable bag)
    (hlen32 : bag.managed_transforms.length < 4294967296)
    (i : ℕ) (h1 : 1 ≤ i) (h2 : i < bag.managed_transforms.length) :
    finalAt bag.final_transforms i
      = finalAt bag.final_transforms (parentIdx bag.managed_transforms i)
        * localAt bag.managed_transforms i :=
  (reachable_bagInv hR hlen32).finalized i h1 h2

/-- C1 counterexample to the claim as stated (quantified over every node,
root included): after updating the root's local transform to a translation,
the root node — whose stored parent handle is the root itself — violates
world(node) == world(parent(node)) * local(node). -/
theorem world_transform_finalization_root_counterexample :
    Reachable (GraphicsBag.default.update_transform TransformHandle.root
      ⟨1, 0, 0, 1, 5, 0⟩) ∧
    ¬ (finalAt (GraphicsBag.default.update_transform TransformHandle.root
          ⟨1, 0, 0, 1, 5, 0⟩).final_transforms 0
        = finalAt (GraphicsBag.default.update_transform TransformHandle.root
            ⟨1, 0, 0, 1, 5, 0⟩).final_transforms
            (parentIdx (GraphicsBag.default.update_transform TransformHandle.root
              ⟨1, 0, 0, 1, 5, 0⟩).managed_transforms 0)
          * localAt (GraphicsBag.default.update_transform TransformHandle.root
              ⟨1, 0, 0, 1, 5, 0⟩).managed_transforms 0) :=
  ⟨Reachable.update TransformHandle.root ⟨1, 0, 0, 1, 5, 0⟩ Reachable.init trivial,
   by
    intro hEq
    have h2 : parentIdx (GraphicsBag.default.update_transform TransformHandle.root
        ⟨1, 0, 0, 1, 5, 0⟩).managed_transforms 0 = 0 := by decide
    have h1 : finalAt (GraphicsBag.default.update_transform TransformHandle.root
        ⟨1, 0, 0, 1, 5, 0⟩).final_transforms 0 = ⟨1, 0, 0, 1, 5, 0⟩ := by decide
    have h3 : localAt (GraphicsBag.default.update_transform TransformHandle.root
        ⟨1, 0, 0, 1, 5, 0⟩).managed_transforms 0 = ⟨1, 0, 0, 1, 5, 0⟩ := by decide
    rw [h2, h1, h3] at hEq
    have hc4 := congrArg Affine.c4 hEq
    have hmul : ((⟨1, 0, 0, 1, 5, 0⟩ : Affine) * ⟨1, 0, 0, 1, 5, 0⟩).c4 = 10 := by
      show (1 : ℚ) * 5 + 0 * 0 + 5 = 10
      norm_num
    rw [hmul] at hc4
    have h5 : ((⟨1, 0, 0, 1, 5, 0⟩ : Affine)).c4 = 5 := rfl
    rw [h5] at hc4
    norm_num at hc4⟩

/-- C1 witness: a root-child chain, with the child's local transform then
updated; the child slot satisfies the finalization equation. -/
theorem world_transform_finalization_witness :
    finalAt ((GraphicsBag.default.register_transform TransformHandle.root
        ⟨1, 0, 0, 1, 2, 0⟩).1.update_transform ⟨some 1⟩
        ⟨2, 0, 0, 2, 0, 0⟩).final_transforms 1
      = finalAt ((GraphicsBag.default.register_transform TransformHandle.root
          ⟨1, 0, 0, 1, 2, 0⟩).1.update_transform ⟨some 1⟩
          ⟨2, 0, 0, 2, 0, 0⟩).final_transforms
          (parentIdx ((GraphicsBag.default.register_transform TransformHandle.root
            ⟨1, 0, 0, 1, 2, 0⟩).1.update_transform ⟨some 1⟩
            ⟨2, 0, 0, 2, 0, 0⟩).managed_transforms 1)
        * localAt ((GraphicsBag.default.register_transform TransformHandle.root
            ⟨1, 0, 0, 1, 2, 0⟩).1.update_transform ⟨some 1⟩
            ⟨2, 0, 0, 2, 0, 0⟩).managed_transforms 1 :=
  world_transform_finalization
    ((GraphicsBag.default.register_transform TransformHandle.root
        ⟨1, 0, 0, 1, 2, 0⟩).1.update_transform ⟨some 1⟩ ⟨2, 0, 0, 2, 0, 0⟩)
    (Reachable.update ⟨some 1⟩ ⟨2, 0, 0, 2, 0, 0⟩
      (Reachable.register TransformHandle.root ⟨1, 0, 0, 1, 2, 0⟩
        Reachable.init trivial)
      (by decide))
    (by decide) 1 (by decide) (by decide)

/-- C2 (code-bug evidence): a batch consisting solely of a root update applies
the local replacement but silently skips finalization — the sentinel early
return, whose comment says it handles the empty iterator, also fires when only
the root handle was updated — whereas the equivalent single `update_transform`
call finalizes; the final world-transform arrays differ while the managed
records agree. -/
theorem update_transforms_root_only_skips_finalization :
    (GraphicsBag.default.update_transforms
        [(TransformHandle.root, ⟨1, 0, 0, 1, 5, 0⟩)]).final_transforms = [Affine.id]
    ∧ (GraphicsBag.default.update_transform TransformHandle.root
        ⟨1, 0, 0, 1, 5, 0⟩).final_transforms = [⟨1, 0, 0, 1, 5, 0⟩]
    ∧ (GraphicsBag.default.update_transforms
        [(TransformHandle.root, ⟨1, 0, 0, 1, 5, 0⟩)]).managed_transforms
      = (GraphicsBag.default.update_transform TransformHandle.root
          ⟨1, 0, 0, 1, 5, 0⟩).managed_transforms := by
  decide

/-! ### The u32 wrap point of transform handles -/

/-- The bag obtained from `GraphicsBag::default()` by `n` successive
`register_transform(root, identity)` calls; its transform table holds `n + 1`
slots. -/
def registerN : ℕ → GraphicsBag
  | 0 => GraphicsBag.default
  | n + 1 => ((registerN n).register_transform TransformHandle.root Affine.id).1

lemma registerN_managed_succ (n : ℕ) :
    (registerN (n + 1)).managed_transforms
      = (registerN n).managed_transforms
        ++ [⟨TransformHandle.root, Affine.id⟩] := rfl

lemma registerN_final_succ (n : ℕ) :
    (registerN (n + 1)).final_transforms
      = (registerN n).final_transforms
        ++ [finalAt (registerN n).final_transforms TransformHandle.root.toIdx
            * Affine.id] := rfl

lemma registerN_reachable (n : ℕ) : Reachable (registerN n) := by
  induction n with
  | zero => exact Reachable.init
  | succ n ih =>
      exact Reachable.register TransformHandle.root Affine.id ih trivial

lemma registerN_len (n : ℕ) :
    (registerN n).managed_transforms.length = n + 1 := by
  induction n with
  | zero => rfl
  | succ n ih => rw [registerN_managed_succ]; simp [ih]

lemma registerN_final_len (n : ℕ) :
    (registerN n).final_transforms.length = n + 1 := by
  induction n with
  | zero => rfl
  | succ n ih => rw [registerN_final_succ]; simp [ih]

lemma finalAt_ge_length (fs : List Affine) (j : ℕ) (h : fs.length ≤ j) :
    finalAt fs j = Affine.id := by
  unfold finalAt
  rw [List.getD_eq_getElem?_getD, List.getElem?_eq_none h]
  rfl

lemma parentIdx_ge_length (ms : List ManagedTransform) (j : ℕ)
    (h : ms.length ≤ j) : parentIdx ms j = 0 := by
  unfold parentIdx
  rw [List.getD_eq_getElem?_getD, List.getElem?_eq_none h]
  rfl

lemma Affine.id_mul (a : Affine) : Affine.id * a = a := by
  rcases a with ⟨a0, a1, a2, a3, a4, a5⟩
  show Affine.mul Affine.id ⟨a0, a1, a2, a3, a4, a5⟩ = ⟨a0, a1, a2, a3, a4, a5⟩
  unfold Affine.mul Affine.id
  simp

/-- Every slot of `registerN n` has the root as parent. -/
lemma registerN_parentIdx (n : ℕ) :
    ∀ j, parentIdx (registerN n).managed_transforms j = 0 := by
  induction n with
  | zero =>
      intro j
      rcases Nat.lt_or_ge j 1 with hj | hj
      · interval_cases j
        rfl
      · exact parentIdx_ge_length _ _ hj
  | succ n ih =>
      intro j
      rw [registerN_managed_succ]
      rcases Nat.lt_trichotomy j (registerN n).managed_transforms.length
        with hj | hj | hj
      · rw [parentIdx_append_left _ _ _ hj]
        exact ih j
      · rw [hj, parentIdx_concat_length]
        rfl
      · refine parentIdx_ge_length _ _ ?_
        simp only [List.length_append, List.length_cons, List.length_nil]
        omega

/-- Every world transform cached by `registerN n` is the identity. -/
lemma registerN_finalAt (n : ℕ) :
    ∀ j, finalAt (registerN n).final_transforms j = Affine.id := by
  induction n with
  | zero =>
      intro j
      rcases Nat.lt_or_ge j 1 with hj | hj
      · interval_cases j
        rfl
      · exact finalAt_ge_length _ _ hj
  | succ n ih =>
      intro j
      rw [registerN_final_succ]
      rcases Nat.lt_trichotomy j (registerN n).final_transforms.length
        with hj | hj | hj
      · rw [finalAt_append_left _ _ _ hj]
        exact ih j
      · rw [hj, finalAt_concat_length, ih TransformHandle.root.toIdx,
          Affine.id_mul]
      · refine finalAt_ge_length _ _ ?_
        simp only [List.length_append, List.length_cons, List.length_nil]
        omega

/-- C8 counterexample: after 4294967295 registrations the transform table
holds 2^32 slots, so the next `register_transform` computes
`NonZeroU32::new(len as u32)` with `len as u32 == 0` and returns the ROOT
handle: the new handle's slot index does not exceed the parent's. -/
theorem register_transform_handle_ordering_counterexample :
    Reachable (registerN 4294967295) ∧
    IssuedHandle (registerN 4294967295) TransformHandle.root ∧
    ¬ TransformHandle.root.toIdx
        < (((registerN 4294967295).register_transform TransformHandle.root
            Affine.id).2).toIdx := by
  refine ⟨registerN_reachable _, trivial, ?_⟩
  have hlen : (registerN 4294967295).managed_transforms.length = 4294967296 :=
    registerN_len 4294967295
  have hhandle : ((registerN 4294967295).register_transform TransformHandle.root
      Affine.id).2 = TransformHandle.root := by
    show (⟨if (registerN 4294967295).managed_transforms.length % 4294967296 = 0
        then none
        else some ((registerN 4294967295).managed_transforms.length % 4294967296)⟩
      : TransformHandle) = TransformHandle.root
    rw [hlen, if_pos (by norm_num : (4294967296 : ℕ) % 4294967296 = 0)]
    rfl
  rw [hhandle]
  exact lt_irrefl _

/-- A 2^32-slot bag whose slot 4294967295 — handle payload `u32::MAX`, the
value of the `least` sentinel — receives a batched local-transform update. -/
def sentinelBag : GraphicsBag :=
  (registerN 4294967295).update_transforms
    [(⟨some 4294967295⟩, ⟨1, 0, 0, 1, 5, 0⟩)]

lemma sentinelBag_eq :
    sentinelBag
      = { registerN 4294967295 with
          managed_transforms :=
            setLocal (registerN 4294967295).managed_transforms 4294967295
              ⟨1, 0, 0, 1, 5, 0⟩ } := by
  unfold sentinelBag GraphicsBag.update_transforms
  simp only [List.foldl_cons, List.foldl_nil]
  have hstep : updatePairsStep
      ((registerN 4294967295).managed_transforms, false, 4294967295)
      (⟨some 4294967295⟩, ⟨1, 0, 0, 1, 5, 0⟩)
      = (setLocal (registerN 4294967295).managed_transforms 4294967295
          ⟨1, 0, 0, 1, 5, 0⟩, false, 4294967295) := by
    show (setLocal (registerN 4294967295).managed_transforms
        (TransformHandle.toIdx ⟨some 4294967295⟩) ⟨1, 0, 0, 1, 5, 0⟩, false,
        min 4294967295 4294967295) = _
    rw [min_self]
    rfl
  rw [hstep]
  unfold updateTransformsWith
  rw [if_pos rfl]

lemma sentinelBag_managed :
    sentinelBag.managed_transforms
      = setLocal (registerN 4294967295).managed_transforms 4294967295
          ⟨1, 0, 0, 1, 5, 0⟩ := by
  rw [sentinelBag_eq]

lemma sentinelBag_final :
    sentinelBag.final_transforms = (registerN 4294967295).final_transforms := by
  rw [sentinelBag_eq]

/-- The sentinel collision that forces the width bound in the amended C1: in a
reachable bag holding exactly 2^32 transforms, a batched update of slot
4294967295 — whose handle payload equals `NonZeroU32::MAX` — leaves `least` at
the sentinel value, so `update_transforms` mistakes the batch for an empty one,
skips finalization, and leaves that non-root slot's world transform stale. -/
theorem sentinel_slot_batch_leaves_stale_world_transform :
    Reachable sentinelBag ∧
    4294967295 < sentinelBag.managed_transforms.length ∧
    finalAt sentinelBag.final_transforms 4294967295
      ≠ finalAt sentinelBag.final_transforms
          (parentIdx sentinelBag.managed_transforms 4294967295)
        * localAt sentinelBag.managed_transforms 4294967295 := by
  have hlen : (registerN 4294967295).managed_transforms.length = 4294967296 :=
    registerN_len 4294967295
  refine ⟨?_, ?_, ?_⟩
  · show Reachable ((registerN 4294967295).update_transforms
      [(⟨some 4294967295⟩, ⟨1, 0, 0, 1, 5, 0⟩)])
    refine Reachable.updateBatch _ (registerN_reachable _) ?_
    intro kv hkv
    rw [List.mem_singleton] at hkv
    rw [hkv]
    show 1 ≤ 4294967295
      ∧ 4294967295 < (registerN 4294967295).managed_transforms.length
      ∧ 4294967295 < 4294967296
    refine ⟨by norm_num, ?_, by norm_num⟩
    rw [hlen]
    norm_num
  · rw [sentinelBag_managed, length_setLocal, hlen]
    norm_num
  · rw [sentinelBag_managed, sentinelBag_final]
    rw [parentIdx_setLocal, registerN_parentIdx 4294967295 4294967295]
    rw [localAt_setLocal_self _ _ _ (by rw [hlen]; norm_num)]
    rw [registerN_finalAt 4294967295 4294967295, registerN_finalAt 4294967295 0,
      Affine.id_mul]
    intro hcon
    have hc4 := congrArg Affine.c4 hcon
    have h0 : Affine.id.c4 = 0 := rfl
    have h5 : ((⟨1, 0, 0, 1, 5, 0⟩ : Affine)).c4 = 5 := rfl
    rw [h0, h5] at hc4
    norm_num at hc4

/-- C8 (amended: in bags holding fewer than 2^32 transforms): below the u32
wrap, `register_transform` returns a handle whose slot index (the payload of
`NonZeroU32::new(len as u32)`) is strictly greater than the supplied parent
handle's slot index, and in every such reachable bag each non-root node's slot
index exceeds its parent's. At exactly 2^32 registered transforms the cast
wraps to zero and the root handle is returned instead (see the
counterexample), so the unrestricted ordering claim fails. -/
theorem register_transform_handle_ordering (bag : GraphicsBag) (hR : Reachable bag)
    (hlen32 : bag.managed_transforms.length < 4294967296)
    (parent : TransformHandle) (hp : IssuedHandle bag parent) (l : Affine) :
    parent.toIdx < ((bag.register_transform parent l).2).toIdx ∧
    ∀ i, 1 ≤ i → i < bag.managed_transforms.length →
      parentIdx bag.managed_transforms i < i := by
  have hI := reachable_bagInv hR hlen32
  refine ⟨?_, hI.parent_lt⟩
  have hplt := issued_toIdx_lt hI.len_pos hp
  have hmod : bag.managed_transforms.length % 4294967296
      = bag.managed_transforms.length := Nat.mod_eq_of_lt hlen32
  have h0 : ¬ bag.managed_transforms.length % 4294967296 = 0 := by
    rw [hmod]
    have := hI.len_pos
    omega
  have hn : ((bag.register_transform parent l).2).toIdx
      = bag.managed_transforms.length := by
    show (TransformHandle.toIdx
      ⟨if bag.managed_transforms.length % 4294967296 = 0 then none
       else some (bag.managed_transforms.length % 4294967296)⟩)
      = bag.managed_transforms.length
    rw [if_neg h0]
    show bag.managed_transforms.length % 4294967296
      = bag.managed_transforms.length
    exact hmod
  rw [hn]
  exact hplt

/-- C8 witness: registering under the root of the default bag yields a handle
with slot index 1 > 0. -/
theorem register_transform_handle_ordering_witness :
    TransformHandle.toIdx TransformHandle.root
      < ((GraphicsBag.default.register_transform TransformHandle.root
          Affine.id).2).toIdx ∧
    ∀ i, 1 ≤ i → i < GraphicsBag.default.managed_transforms.length →
      parentIdx GraphicsBag.default.managed_transforms i < i :=
  register_transform_handle_ordering GraphicsBag.default Reachable.init
    (by decide) TransformHandle.root trivial Affine.id

/-! ### RestrokePaint (tabulon_dxf) -/

/-- Rust `GraphicsBag::get_paint_mut(handle)` followed by `p.stroke = s`: replace
the stroke of palette entry `i` in place (the source unwraps and would panic
out of range; modelled as a no-op there, in-bounds under the theorem's
hypothesis). -/
def setStroke (palette : List FatPaint) (i : ℕ) (s : Stroke) : List FatPaint :=
  palette.set i { palette.getD i default with stroke := s }

/-- Rust `f64::clamp(lo, hi)` (which asserts `lo ≤ hi`). -/
def clampQ (x lo hi : ℚ) : ℚ := if x < lo then lo else if x > hi then hi else x

/-- Rust `RestrokePaint`: physical line weight in iota (`u64`) with its target
`PaintHandle`. -/
structure RestrokePaint where
  weight : ℕ
  handle : PaintHandle

/-- Rust `RestrokePaint::adapt(graphics, pitch, view_scale, min_stroke,
max_stroke)`: `pxw = (weight / pitch).clamp(min_stroke, max_stroke)` and the
target paint's stroke becomes `Stroke::new(pxw / view_scale)`. -/
def RestrokePaint.adapt (rp : RestrokePaint) (graphics : GraphicsBag) (pitch : ℕ)
    (view_scale min_stroke max_stroke : ℚ) : GraphicsBag :=
  let pxw := clampQ ((rp.weight : ℚ) / (pitch : ℚ)) min_stroke max_stroke
  { graphics with
      palette := setStroke graphics.palette rp.handle.idx ⟨pxw / view_scale⟩ }

/-- C9 (confirmed): `RestrokePaint::adapt` rewrites exactly the palette entry
addressed by its `PaintHandle`, giving it stroke width
`clamp(weight / pitch, min_stroke, max_stroke) / view_scale`, and leaves every
other palette entry, every item, and every transform of the bag unchanged
(hypotheses: the handle is in range, the pitch is nonzero, and
`min_stroke ≤ max_stroke`, without which the Rust `f64` computation would
produce non-finite values or panic). -/
theorem restroke_adapt_updates_only_target (rp : RestrokePaint)
    (graphics : GraphicsBag) (pitch : ℕ) (view_scale min_stroke max_stroke : ℚ)
    (hin : rp.handle.idx < graphics.palette.length) (_hpitch : 0 < pitch)
    (_hmm : min_stroke ≤ max_stroke) :
    (rp.adapt graphics pitch view_scale min_stroke max_stroke).palette.getD
        rp.handle.idx default
      = { graphics.palette.getD rp.handle.idx default with
            stroke := ⟨clampQ ((rp.weight : ℚ) / (pitch : ℚ)) min_stroke
                        max_stroke / view_scale⟩ }
    ∧ (∀ j, j ≠ rp.handle.idx →
        (rp.adapt graphics pitch view_scale min_stroke max_stroke).palette.getD
            j default
          = graphics.palette.getD j default)
    ∧ (rp.adapt graphics pitch view_scale min_stroke max_stroke).items
        = graphics.items
    ∧ (rp.adapt graphics pitch view_scale min_stroke max_stroke).managed_transforms
        = graphics.managed_transforms
    ∧ (rp.adapt graphics pitch view_scale min_stroke max_stroke).final_transforms
        = graphics.final_transforms := by
  refine ⟨?_, ?_, rfl, rfl, rfl⟩
  · show (setStroke graphics.palette rp.handle.idx _).getD rp.handle.idx default = _
    unfold setStroke
    simp [List.getD_eq_getElem?_getD, List.getElem?_set_self hin]
  · intro j hj
    show (setStroke graphics.palette rp.handle.idx _).getD j default = _
    unfold setStroke
    simp [List.getD_eq_getElem?_getD, List.getElem?_set_ne (Ne.symm hj)]

/-- C9 witness: a one-entry palette, weight 500, pitch 100, view scale 2,
stroke bounds [1, 4]: the entry's stroke width becomes clamp(5,1,4)/2 = 2 and
nothing else changes. -/
theorem restroke_adapt_updates_only_target_witness :
    ((RestrokePaint.mk 500 ⟨0⟩).adapt
        (GraphicsBag.default.register_paint ⟨⟨1⟩, none, none⟩).1 100 2 1 4).palette.getD
        (0 : ℕ) default
      = { ((GraphicsBag.default.register_paint ⟨⟨1⟩, none, none⟩).1).palette.getD
            (0 : ℕ) default with
            stroke := ⟨clampQ (((500 : ℕ) : ℚ) / ((100 : ℕ) : ℚ)) 1 4 / 2⟩ }
    ∧ (∀ j, j ≠ (0 : ℕ) →
        ((RestrokePaint.mk 500 ⟨0⟩).adapt
            (GraphicsBag.default.register_paint ⟨⟨1⟩, none, none⟩).1 100 2 1 4).palette.getD
            j default
          = ((GraphicsBag.default.register_paint ⟨⟨1⟩, none, none⟩).1).palette.getD
              j default)
    ∧ ((RestrokePaint.mk 500 ⟨0⟩).adapt
        (GraphicsBag.default.register_paint ⟨⟨1⟩, none, none⟩).1 100 2 1 4).items
        = ((GraphicsBag.default.register_paint ⟨⟨1⟩, none, none⟩).1).items
    ∧ ((RestrokePaint.mk 500 ⟨0⟩).adapt
        (GraphicsBag.default.register_paint ⟨⟨1⟩, none, none⟩).1 100 2 1 4).managed_transforms
        = ((GraphicsBag.default.register_paint ⟨⟨1⟩, none, none⟩).1).managed_transforms
    ∧ ((RestrokePaint.mk 500 ⟨0⟩).adapt
        (GraphicsBag.default.register_paint ⟨⟨1⟩, none, none⟩).1 100 2 1 4).final_transforms
        = ((GraphicsBag.default.register_paint ⟨⟨1⟩, none, none⟩).1).final_transforms :=
  restroke_adapt_updates_only_target (RestrokePaint.mk 500 ⟨0⟩)
    (GraphicsBag.default.register_paint ⟨⟨1⟩, none, none⟩).1 100 2 1 4
    (by decide) (by decide) (by norm_num)

/-! ### FatShape::bounding_box (tabulon shape.rs) -/

/-- kurbo `Rect` (sides as ℚ). -/
structure Rect where
  x0 : ℚ
  y0 : ℚ
  x1 : ℚ
  y1 : ℚ
deriving DecidableEq

/-- kurbo `Rect::union`: the smallest rectangle enclosing both. -/
def Rect.union (r s : Rect) : Rect :=
  ⟨min r.x0 s.x0, min r.y0 s.y0, max r.x1 s.x1, max r.y1 s.y1⟩

/-- Rust `FatShape::bounding_box`:
`self.subshapes.get(1).map(|s| subshapes.iter().map(bounding_box).fold(s.bounding_box(), union))`.
The subshape type `σ` and kurbo's per-shape `bounding_box` are abstract. -/
def FatShape.bounding_box {σ : Type} (bbox : σ → Rect) (subshapes : List σ) :
    Option Rect :=
  (subshapes[1]?).map fun s => (subshapes.map bbox).foldl Rect.union (bbox s)

/-- Union of all boxes of a nonempty list; `none` for the empty list. -/
def unionOfBoxes : List Rect → Option Rect
  | [] => none
  | r :: rest => some (rest.foldl Rect.union r)

lemma Rect.union_cycle (a b : Rect) : (b.union a).union b = a.union b := by
  simp only [Rect.union, min_comm b.x0 a.x0, min_comm b.y0 a.y0,
    max_comm b.x1 a.x1, max_comm b.y1 a.y1, min_assoc, max_assoc,
    min_self, max_self]

/-- C10 (confirmed): `FatShape::bounding_box` is `none` whenever the shape has
fewer than two subshapes — including exactly one, whose box would be well
defined — and for two or more subshapes it is the union of all subshapes'
bounding boxes (the fold seeded with `subshapes[1]`'s box equals it). -/
theorem fatshape_bounding_box_requires_two_subshapes {σ : Type} (bbox : σ → Rect)
    (subshapes : List σ) :
    FatShape.bounding_box bbox subshapes =
      match subshapes with
      | _ :: _ :: _ => unionOfBoxes (subshapes.map bbox)
      | _ => none := by
  cases subshapes with
  | nil => rfl
  | cons x tail =>
      cases tail with
      | nil => rfl
      | cons y rest =>
          simp only [FatShape.bounding_box, unionOfBoxes, List.map_cons,
            List.foldl_cons, List.getElem?_cons_succ, List.getElem?_cons_zero,
            Option.map_some']
          rw [Rect.union_cycle]

/-! ### Entity paint resolution (tabulon_dxf `resolve_paint`) -/

/-- Reinterpretation of a signed integer as `u32` (`as u32`). -/
def toU32 (t : ℤ) : ℕ := (t % 4294967296).toNat

/-- The color-resolution step of the `resolve_paint` closure in
`load_file_default_layers`: `c` is the recovered color enumeration
(257 = by-entity, 256 = by-layer, 1..=255 = indexed), `layerColorIndex` is
`layer.color.index()`, `color24` is `e.common.color_24_bit`, and `aci` is the
indexed-color palette table (its contents are irrelevant here). -/
def resolveOpaqueColor (aci : ℕ → ℕ) (c : ℤ) (layerColorIndex : Option ℕ)
    (color24 : ℤ) : ℕ :=
  if c = 257 then toU32 color24
  else if c = 256 then
    match layerColorIndex with
    | some i => aci i
    | none => 4294967295
  else if 1 ≤ c ∧ c ≤ 255 then aci c.toNat
  else 4294967295

/-- Rust `(opaque_color << 8) | (0xFF - (e.common.transparency as u32 & 0xFF))`,
computed in `u32`. -/
def combinedColor (ocolor : ℕ) (transparency : ℤ) : ℕ :=
  ((ocolor <<< 8) % 4294967296) ||| (255 - (toU32 transparency &&& 255))

lemma and255_eq_mod (x : ℕ) : x &&& 255 = x % 256 := by
  have h := Nat.and_pow_two_sub_one_eq_mod x 8
  norm_num at h
  exact h

/-- C7 (confirmed): for a by-layer (256) color enumeration whose owning layer
has no resolvable color index, the resolved opaque color is the conservative
fallback `u32::MAX` (all color bits set) — no panic is possible on this path —
and the combined color's alpha byte (`combined_color & 0xFF`, as extracted by
the source) is `0xFF` minus the low byte of the entity's transparency. -/
theorem by_layer_unresolvable_color_falls_back (aci : ℕ → ℕ)
    (color24 transparency : ℤ) :
    resolveOpaqueColor aci 256 none color24 = 4294967295
    ∧ combinedColor (resolveOpaqueColor aci 256 none color24) transparency
        = 4294967040 ||| (255 - toU32 transparency % 256)
    ∧ combinedColor (resolveOpaqueColor aci 256 none color24) transparency &&& 255
        = 255 - toU32 transparency % 256 := by
  have h1 : resolveOpaqueColor aci 256 none color24 = 4294967295 := rfl
  have hsh : ((4294967295 <<< 8) % 4294967296 : ℕ) = 4294967040 := by decide
  have halpha : 255 - (toU32 transparency &&& 255)
      = 255 - toU32 transparency % 256 := by
    rw [and255_eq_mod]
  have h2 : combinedColor (resolveOpaqueColor aci 256 none color24) transparency
      = 4294967040 ||| (255 - toU32 transparency % 256) := by
    rw [h1]
    unfold combinedColor
    rw [hsh, halpha]
  refine ⟨h1, h2, ?_⟩
  rw [h2, Nat.and_distrib_right]
  have hz : (4294967040 &&& 255 : ℕ) = 0 := by decide
  have hlt : 255 - toU32 transparency % 256 < 256 := by omega
  have hid : (255 - toU32 transparency % 256) &&& 255
      = 255 - toU32 transparency % 256 := by
    rw [and255_eq_mod]
    omega
  rw [hz, hid, Nat.zero_or]

/-! ### Block resolution loop (tabulon_dxf `load_file_default_layers`) -/

/-- A block's entity, as far as the resolution control flow is concerned:
an `Insert` naming another block, or any other entity (block names are
modelled as naturals). The chunk/style bookkeeping of the source does not
influence which blocks get resolved, only the `continue 'block` on an
`Insert` whose target is not yet realized does. -/
inductive BEntity where
  | insert (name : ℕ)
  | other
deriving DecidableEq

/-- A named block with its entity list. -/
structure Block where
  name : ℕ
  entities : List BEntity
deriving DecidableEq

/-- Whether every `Insert` in the entity list refers to an already-realized
block; the source hits `continue 'block` at the first one that does not. -/
def depsResolved (resolved : List ℕ) (es : List BEntity) : Bool :=
  es.all fun e =>
    match e with
    | .insert n => decide (n ∈ resolved)
    | .other => true

/-- One pass of the `'block: for b in unresolved_blocks` loop, threading the
realized block map (keys only) and `there_is_absolutely_no_hope`; a block
with no entities is realized via the early `continue`, which leaves the flag
untouched. -/
def passResolve : List Block → List ℕ → Bool → List ℕ × Bool
  | [], resolved, noHope => (resolved, noHope)
  | b :: rest, resolved, noHope =>
      if b.entities.isEmpty then passResolve rest (resolved ++ [b.name]) noHope
      else if depsResolved resolved b.entities then
        passResolve rest (resolved ++ [b.name]) false
      else passResolve rest resolved noHope

/-- The `while !unresolved_blocks.is_empty() && !there_is_absolutely_no_hope`
loop: each iteration sets the flag, runs a pass, and retains the blocks whose
names are still unrealized. The loop is fueled; the claim theorem shows fuel
`pending.length` always suffices. -/
def resolveLoop : ℕ → List Block → List ℕ → Bool → List ℕ × List Block
  | 0, pending, resolved, _ => (resolved, pending)
  | fuel + 1, pending, resolved, noHope =>
      if pending.isEmpty || noHope then (resolved, pending)
      else
        let st := passResolve pending resolved true
        let pending' := pending.filter fun b => decide (b.name ∉ st.1)
        resolveLoop fuel pending' st.1 st.2

/-- The block-resolution fixed point of `load_file_default_layers`, run with
the provably sufficient fuel. -/
def resolveBlocks (blocks : List Block) : List ℕ × List Block :=
  resolveLoop blocks.length blocks [] false

lemma passResolve_mem (n : ℕ) :
    ∀ (pending : List Block) (resolved : List ℕ) (noHope : Bool),
      n ∈ resolved → n ∈ (passResolve pending resolved noHope).1 := by
  intro pending
  induction pending with
  | nil => intro resolved noHope h; exact h
  | cons b rest ih =>
      intro resolved noHope h
      unfold passResolve
      split_ifs with h1 h2
      · exact ih _ _ (by simp [h])
      · exact ih _ _ (by simp [h])
      · exact ih _ _ h

lemma passResolve_flag_false :
    ∀ (pending : List Block) (resolved : List ℕ),
      (passResolve pending resolved true).2 = false →
      ∃ b ∈ pending, b.name ∈ (passResolve pending resolved true).1 := by
  intro pending
  induction pending with
  | nil => intro resolved h; simp [passResolve] at h
  | cons b rest ih =>
      intro resolved h
      unfold passResolve at h ⊢
      split_ifs at h ⊢ with h1 h2
      · obtain ⟨c, hc, hcr⟩ := ih _ h
        exact ⟨c, by simp [hc], hcr⟩
      · refine ⟨b, by simp, ?_⟩
        exact passResolve_mem b.name rest (resolved ++ [b.name]) false (by simp)
      · obtain ⟨c, hc, hcr⟩ := ih _ h
        exact ⟨c, by simp [hc], hcr⟩

lemma filter_length_lt_of_mem {α : Type} (l : List α) (p : α → Bool) (x : α)
    (hx : x ∈ l) (hpx : p x = false) : (l.filter p).length < l.length := by
  induction l with
  | nil => cases hx
  | cons a rest ih =>
      rcases List.mem_cons.1 hx with rfl | hx'
      · have h1 : (rest.filter p).length ≤ rest.length := List.length_filter_le _ _
        simp [List.filter_cons, hpx]
        omega
      · by_cases hpa : p a
        · simpa [List.filter_cons, hpa] using ih hx'
        · have h1 : (rest.filter p).length ≤ rest.length := List.length_filter_le _ _
          simp [List.filter_cons, hpa]
          omega

/-- A pass whose flag came back `false` realized at least one block that the
retain step then removes: the pending list strictly shrinks. -/
lemma pass_progress_shrinks (pending : List Block) (resolved : List ℕ)
    (hflag : (passResolve pending resolved true).2 = false) :
    (pending.filter fun b =>
        decide (b.name ∉ (passResolve pending resolved true).1)).length
      < pending.length := by
  obtain ⟨b, hb, hbr⟩ := passResolve_flag_false pending resolved hflag
  exact filter_length_lt_of_mem _ _ b hb (by simp [hbr])

lemma resolveLoop_noHope (fuel : ℕ) (pending : List Block) (resolved : List ℕ) :
    resolveLoop fuel pending resolved true = (resolved, pending) := by
  cases fuel with
  | zero => rfl
  | succ n => simp [resolveLoop]

lemma resolveLoop_nil (fuel : ℕ) (resolved : List ℕ) (noHope : Bool) :
    resolveLoop fuel [] resolved noHope = (resolved, []) := by
  cases fuel with
  | zero => rfl
  | succ n => simp [resolveLoop]

lemma resolveLoop_fuel_stable :
    ∀ (L fuel : ℕ) (pending : List Block) (resolved : List ℕ) (noHope : Bool),
      pending.length ≤ L → pending.length ≤ fuel →
      resolveLoop fuel pending resolved noHope
        = resolveLoop pending.length pending resolved noHope := by
  intro L
  induction L with
  | zero =>
      intro fuel pending resolved noHope hL _
      have hnil : pending = [] := by
        cases pending with
        | nil => rfl
        | cons a l => simp at hL
      subst hnil
      rw [resolveLoop_nil, resolveLoop_nil]
  | succ L ih =>
      intro fuel pending resolved noHope hL hf
      by_cases hp : pending = []
      · subst hp
        rw [resolveLoop_nil, resolveLoop_nil]
      · have hpe : pending.isEmpty = false := by
          cases pending with
          | nil => exact absurd rfl hp
          | cons a l => rfl
        have hlen1 : 1 ≤ pending.length := by
          cases pending with
          | nil => exact absurd rfl hp
          | cons a l => simp
        obtain ⟨fl, rfl⟩ : ∃ fl, fuel = fl + 1 := ⟨fuel - 1, by omega⟩
        obtain ⟨pl, hpl⟩ : ∃ pl, pending.length = pl + 1 :=
          ⟨pending.length - 1, by omega⟩
        rcases noHope with _ | _
        · rw [hpl]
          simp only [resolveLoop, hpe, Bool.or_false, Bool.false_eq_true,
            if_false]
          cases hflag : (passResolve pending resolved true).2 with
          | false =>
              have hshrink := pass_progress_shrinks pending resolved hflag
              rw [ih fl _ _ _ (by omega) (by omega),
                ih pl _ _ _ (by omega) (by omega)]
          | true =>
              rw [resolveLoop_noHope, resolveLoop_noHope]
        · rw [resolveLoop_noHope, resolveLoop_noHope]

/-- C4 (confirmed): the block-resolution fixed-point iteration terminates on
every input. A pass whose no-hope flag comes back `false` realized at least
one block and the retained pending list strictly shrinks; consequently the
loop reaches its final state within `pending.length` passes — extra fuel
never changes the result, so cyclic or missing block references end the
process with the remainder left unresolved instead of looping or crashing,
and `resolveBlocks` always returns. -/
theorem block_resolution_loop_terminates :
    (∀ (pending : List Block) (resolved : List ℕ),
        (passResolve pending resolved true).2 = false →
        (pending.filter fun b =>
            decide (b.name ∉ (passResolve pending resolved true).1)).length
          < pending.length)
    ∧ (∀ (fuel : ℕ) (pending : List Block) (resolved : List ℕ) (noHope : Bool),
        pending.length ≤ fuel →
        resolveLoop fuel pending resolved noHope
          = resolveLoop pending.length pending resolved noHope)
    ∧ ∀ (blocks : List Block) (fuel : ℕ), blocks.length ≤ fuel →
        resolveLoop fuel blocks [] false = resolveBlocks blocks :=
  ⟨fun pending resolved h => pass_progress_shrinks pending resolved h,
   fun fuel pending resolved noHope hf =>
     resolveLoop_fuel_stable pending.length fuel pending resolved noHope le_rfl hf,
   fun blocks fuel hf =>
     resolveLoop_fuel_stable blocks.length fuel blocks [] false le_rfl hf⟩

/-- C4 witness: a cyclic two-block library (0 inserts 1, 1 inserts 0)
together with one plain block (2): the pass realizes block 2, the pending
list shrinks from 3 to 2, and any fuel at least 3 gives the fixed point. -/
theorem block_resolution_loop_terminates_witness :
    (([⟨2, [BEntity.other]⟩, ⟨0, [BEntity.insert 1]⟩,
        ⟨1, [BEntity.insert 0]⟩] : List Block).filter fun b =>
        decide (b.name ∉ (passResolve
          [⟨2, [BEntity.other]⟩, ⟨0, [BEntity.insert 1]⟩,
            ⟨1, [BEntity.insert 0]⟩] [] true).1)).length
      < ([⟨2, [BEntity.other]⟩, ⟨0, [BEntity.insert 1]⟩,
          ⟨1, [BEntity.insert 0]⟩] : List Block).length
    ∧ resolveLoop 7 [⟨2, [BEntity.other]⟩, ⟨0, [BEntity.insert 1]⟩,
          ⟨1, [BEntity.insert 0]⟩] [] false
        = resolveLoop ([⟨2, [BEntity.other]⟩, ⟨0, [BEntity.insert 1]⟩,
            ⟨1, [BEntity.insert 0]⟩] : List Block).length
            [⟨2, [BEntity.other]⟩, ⟨0, [BEntity.insert 1]⟩,
              ⟨1, [BEntity.insert 0]⟩] [] false
    ∧ resolveLoop 7 [⟨2, [BEntity.other]⟩, ⟨0, [BEntity.insert 1]⟩,
          ⟨1, [BEntity.insert 0]⟩] [] false
        = resolveBlocks [⟨2, [BEntity.other]⟩, ⟨0, [BEntity.insert 1]⟩,
            ⟨1, [BEntity.insert 0]⟩] :=
  ⟨block_resolution_loop_terminates.1
      [⟨2, [BEntity.other]⟩, ⟨0, [BEntity.insert 1]⟩, ⟨1, [BEntity.insert 0]⟩]
      [] (by decide),
   block_resolution_loop_terminates.2.1 7
      [⟨2, [BEntity.other]⟩, ⟨0, [BEntity.insert 1]⟩, ⟨1, [BEntity.insert 0]⟩]
      [] false (by decide),
   block_resolution_loop_terminates.2.2
      [⟨2, [BEntity.other]⟩, ⟨0, [BEntity.insert 1]⟩, ⟨1, [BEntity.insert 0]⟩]
      7 (by decide)⟩

/-! ### Geometry codec (tabulon_dxf): points, path elements -/

/-- kurbo `Point` (f64 coordinates as ℚ). -/
structure Pt where
  x : ℚ
  y : ℚ
deriving DecidableEq

instance : Inhabited Pt := ⟨⟨0, 0⟩⟩

/-- kurbo `PathEl`: the path-building operations used by the loader
(`move_to`, `line_to`, `quad_to`, `curve_to`, `close_path`); a `BezPath` is
its element list. -/
inductive PathEl where
  | moveTo (p : Pt)
  | lineTo (p : Pt)
  | quadTo (p1 p2 : Pt)
  | curveTo (p1 p2 p3 : Pt)
  | closePath
deriving DecidableEq

/-- kurbo `PathEl::end_point`. -/
def PathEl.endPoint : PathEl → Option Pt
  | .moveTo p => some p
  | .lineTo p => some p
  | .quadTo _ p => some p
  | .curveTo _ _ p => some p
  | .closePath => none

/-- kurbo `Arc` as constructed by `add_poly_segment` (radii as a point-pair,
all angles in radians). -/
structure ArcRec where
  center : Pt
  radii : Pt
  start_angle : ℚ
  sweep_angle : ℚ
  x_rotation : ℚ
deriving DecidableEq

/-- Rust `f64::signum`; only reached with a nonzero argument in
`add_poly_segment` (the `bulge == 0.0` guard fires first, also for `-0.0`),
where it agrees with the mathematical sign. -/
def signumQ (x : ℚ) : ℚ := if 0 < x then 1 else if x < 0 then -1 else 0

/-- Rust `add_poly_segment(bp, start, end, bulge)`. The libm calls `atan`, `sin`,
`cos`, `atan2` and `Vec2::hypot`, and kurbo's `Arc::to_cubic_beziers`
(which appends `curve_to`s), are external; they enter as oracle parameters
`atanF`, `sinF`, `cosF`, `atan2F`, `hypotF`, `arcCubics`, so every theorem
below holds for any semantics of those externals. -/
def addPolySegment (atanF sinF cosF : ℚ → ℚ) (atan2F hypotF : ℚ → ℚ → ℚ)
    (arcCubics : ArcRec → List PathEl)
    (bp : List PathEl) (start endp : Pt) (bulge : ℚ) : List PathEl :=
  if bulge = 0 then bp ++ [.lineTo endp]
  else
    let theta := 4 * atanF bulge
    if |theta| < 1 / 1000000 then bp ++ [.lineTo endp]
    else
      let v : Pt := ⟨endp.x - start.x, endp.y - start.y⟩
      let d := hypotF v.x v.y
      if d < 1 / 10000000000 then bp ++ [.lineTo endp]
      else
        let r := d / (2 * |sinF (theta / 2)|)
        let s := signumQ bulge
        let perp : Pt := ⟨-s * v.y, s * v.x⟩
        let h := r * cosF (theta / 2)
        let midpoint : Pt := ⟨(start.x + endp.x) / 2, (start.y + endp.y) / 2⟩
        let center : Pt := ⟨midpoint.x + h / d * perp.x, midpoint.y + h / d * perp.y⟩
        let start_angle := atan2F (start.y - center.y) (start.x - center.x)
        bp ++ arcCubics ⟨center, ⟨r, r⟩, start_angle, theta, 0⟩

/-- C6 (confirmed): in polyline segment conversion, a bulge of 0 always
appends a straight `LineTo` to the end point, and so do a negligible included
angle (|4·atan(bulge)| below 1e-6) or a near-coincident vertex pair (chord
length below 1e-10) — in those cases no arc is constructed, hence no division
by the near-zero chord length occurs. -/
theorem poly_segment_degenerate_cases_append_line
    (atanF sinF cosF : ℚ → ℚ) (atan2F hypotF : ℚ → ℚ → ℚ)
    (arcCubics : ArcRec → List PathEl)
    (bp : List PathEl) (start endp : Pt) (bulge : ℚ)
    (h : bulge = 0 ∨ |4 * atanF bulge| < 1 / 1000000 ∨
         hypotF (endp.x - start.x) (endp.y - start.y) < 1 / 10000000000) :
    addPolySegment atanF sinF cosF atan2F hypotF arcCubics bp start endp bulge
      = bp ++ [PathEl.lineTo endp] := by
  unfold addPolySegment
  dsimp only
  split_ifs with h1 h2 h3
  · rfl
  · rfl
  · rfl
  · rcases h with h | h | h
    · exact absurd h h1
    · exact absurd h h2
    · exact absurd h h3

/-- C6 witness: a zero bulge between two distinct points appends exactly the
straight segment. -/
theorem poly_segment_degenerate_cases_append_line_witness :
    addPolySegment (fun _ => 0) (fun _ => 0) (fun _ => 0) (fun _ _ => 0)
        (fun _ _ => 0) (fun _ => []) [] ⟨0, 0⟩ ⟨1, 1⟩ 0
      = [PathEl.lineTo ⟨1, 1⟩] :=
  poly_segment_degenerate_cases_append_line (fun _ => 0) (fun _ => 0)
    (fun _ => 0) (fun _ _ => 0) (fun _ _ => 0) (fun _ => []) [] ⟨0, 0⟩ ⟨1, 1⟩ 0
    (Or.inl rfl)

/-! ### Spline conversion (tabulon_dxf `path_from_entity`, `Spline` arm) -/

/-- Rust `eval_spline(degree, control_points, knots, u)`: de Boor evaluation.
Indexing is via `getD` (the source's slice arithmetic stays in bounds under
the caller's guards) and ℚ division is total with `x / 0 = 0` (the source's
`f64` division yields non-finite values there; only the guard structure, not
these values, is at issue in the claims). -/
def eval_spline (degree : ℕ) (cps : List Pt) (knots : List ℚ) (u : ℚ) : Pt :=
  let n := cps.length - 1
  let pos := knots.findIdx fun knot => decide (u < knot)
  let pos := if pos = knots.length then knots.length - 1 else pos
  let k := pos - 1
  if k < degree ∨ n < k then
    if u < knots.getD degree 0 then cps.getD 0 default else cps.getD n default
  else
    let d0 := (cps.drop (k - degree)).take (degree + 1)
    let dfin := (List.range' 1 degree).foldl
      (fun d r =>
        ((List.range' r (degree + 1 - r)).reverse).foldl
          (fun d i =>
            let alpha := (u - knots.getD (k - degree + i) 0)
              / (knots.getD (k - degree + i + degree - r + 1) 0
                  - knots.getD (k - degree + i) 0)
            d.set i
              ⟨(1 - alpha) * (d.getD (i - 1) default).x + alpha * (d.getD i default).x,
               (1 - alpha) * (d.getD (i - 1) default).y + alpha * (d.getD i default).y⟩)
          d)
      d0
    dfin.getD degree default

/-- Rust `derivative_control_points(degree, control_points, knots)`. -/
def derivative_control_points (degree : ℕ) (cps : List Pt) (knots : List ℚ) :
    ℕ × List Pt × List ℚ :=
  let n := cps.length - 1
  if degree = 0 ∨ n < 1 then (0, [], knots)
  else
    ((degree - 1),
     (List.range n).map fun i =>
       let factor := (degree : ℚ)
         / (knots.getD (i + degree + 1) 0 - knots.getD (i + 1) 0)
       ⟨factor * ((cps.getD (i + 1) default).x - (cps.getD i default).x),
        factor * ((cps.getD (i + 1) default).y - (cps.getD i default).y)⟩,
     (knots.drop 1).take (knots.length - 2))

/-- Rust `line_intersection(p0, d0, p1, d1)`. -/
def line_intersection (p0 d0 p1 d1 : Pt) : Option Pt :=
  let determinant := d0.x * -d1.y - -d1.x * d0.y
  if |determinant| < 1 / 10000000000 then none
  else
    let t := ((p1.x - p0.x) * -d1.y - (p1.y - p0.y) * -d1.x) / determinant
    some ⟨p0.x + t * d0.x, p0.y + t * d0.y⟩

/-- Rust `knots[degree..=(knots.len() - 1 - degree)]` collected through a
`BTreeSet<OrdF64>`: the restricted span in ascending order with duplicates
removed. -/
def uniqueKnots (degree : ℕ) (knots : List ℚ) : List ℚ :=
  (((knots.drop degree).take (knots.length - degree - degree)).mergeSort
    (fun a b => decide (a ≤ b))).dedup

/-- The relevant fields of a DXF SPLINE entity: normal z component,
`degree_of_curve`, control points, knot values, closed flag. -/
structure Spline where
  normalZ : ℚ
  degree : ℕ
  controlPoints : List Pt
  knotValues : List ℚ
  isClosed : Bool

/-- The `EntityType::Spline` arm of `path_from_entity`, with Rust panics made
explicit: `.error` marks an `unwrap` failure or the `unreachable!()` arm, and
`.ok none` is the "skip this entity" result. -/
def splinePathFromEntity (s : Spline) : Except String (Option (List PathEl)) := do
  if s.normalZ ≠ 1 then return none
  let degree := s.degree
  if degree > 3 then return none
  let control_points := s.controlPoints
  if control_points.length < degree + 1 then return none
  let knots := s.knotValues
  if knots.length < control_points.length + degree + 1 then return none
  let unique_knots := uniqueKnots degree knots
  if unique_knots.isEmpty then return none
  let first_point := eval_spline degree control_points knots (unique_knots.getD 0 0)
  let bp0 : List PathEl := [.moveTo first_point]
  let bp ← (unique_knots.zip unique_knots.tail).foldlM
    (fun (bp : List PathEl) (w : ℚ × ℚ) => do
      let u0 := w.1
      let u1 := w.2
      match degree with
      | 1 =>
          let p1 := eval_spline degree control_points knots u1
          return bp ++ [.lineTo p1]
      | 2 => do
          let some lastEl := bp.getLast? | Except.error "unwrap: empty path"
          let some p0 := lastEl.endPoint | Except.error "unwrap: no end point"
          let p2 := eval_spline degree control_points knots u1
          let dck := derivative_control_points degree control_points knots
          let d0 := eval_spline dck.1 dck.2.1 dck.2.2 u0
          let d1 := eval_spline dck.1 dck.2.1 dck.2.2 u1
          match line_intersection p0 d0 p2 d1 with
          | some p1 => return bp ++ [.quadTo p1 p2]
          | none => return bp ++ [.lineTo p2]
      | 3 => do
          let some lastEl := bp.getLast? | Except.error "unwrap: empty path"
          let some p0 := lastEl.endPoint | Except.error "unwrap: no end point"
          let p3 := eval_spline degree control_points knots u1
          let dck := derivative_control_points degree control_points knots
          let d0 := eval_spline dck.1 dck.2.1 dck.2.2 u0
          let d1 := eval_spline dck.1 dck.2.1 dck.2.2 u1
          let delta_u := u1 - u0
          let p1 : Pt := ⟨p0.x + delta_u / 3 * d0.x, p0.y + delta_u / 3 * d0.y⟩
          let p2 : Pt := ⟨p3.x - delta_u / 3 * d1.x, p3.y - delta_u / 3 * d1.y⟩
          return bp ++ [.curveTo p1 p2 p3]
      | _ => Except.error "unreachable")
    bp0
  if s.isClosed then return some (bp ++ [.closePath]) else return some bp

/-- C5 (confirmed): a SPLINE whose degree exceeds 3, or with fewer than
degree + 1 control points, or whose knot vector is shorter than
(control points + degree + 1), or whose restricted interior knot range has no
unique knots, is skipped — `path_from_entity` returns `None` — and no panic
is reached. -/
theorem spline_malformed_inputs_are_skipped (s : Spline)
    (h : s.degree > 3 ∨ s.controlPoints.length < s.degree + 1 ∨
         s.knotValues.length < s.controlPoints.length + s.degree + 1 ∨
         uniqueKnots s.degree s.knotValues = []) :
    splinePathFromEntity s = Except.ok none := by
  unfold splinePathFromEntity
  by_cases h0 : s.normalZ ≠ 1
  · rw [if_pos h0]
    rfl
  · rw [if_neg h0]
    by_cases h1 : s.degree > 3
    · rw [if_pos h1]
      rfl
    · rw [if_neg h1]
      by_cases h2 : s.controlPoints.length < s.degree + 1
      · rw [if_pos h2]
        rfl
      · rw [if_neg h2]
        by_cases h3 : s.knotValues.length < s.controlPoints.length + s.degree + 1
        · rw [if_pos h3]
          rfl
        · rw [if_neg h3]
          have h4 : (uniqueKnots s.degree s.knotValues).isEmpty = true := by
            rcases h with h | h | h | h
            · omega
            · omega
            · omega
            · simp [h]
          rw [if_pos h4]
          rfl

/-- C5 witness: a degree-4 spline is skipped (returns `None`, not a panic). -/
theorem spline_malformed_inputs_are_skipped_witness :
    splinePathFromEntity ⟨1, 4, [], [], false⟩ = Except.ok none :=
  spline_malformed_inputs_are_skipped ⟨1, 4, [], [], false⟩ (Or.inl (by decide))

/-! ### EntityIndex::pick (dxf_viewer) -/

/-- Rust `f64` comparison against the running minimum distance, whose initial
value `f64::INFINITY` is modelled as `none` (everything compares below it). -/
def ltInfB (x : ℚ) : Option ℚ → Bool
  | none => true
  | some d => decide (x < d)

/-- One fold step of `EntityIndex::pick` over candidate `b`:
`if ndsq < dsq && ndsq < sp*sp { (ndsq, Some(b)) } else { acc }`, where
`ndsq = dsqOf b` stands for the external
`self.lines[b].nearest(dp, DEFAULT_ACCURACY).distance_sq` (the exact squared
distance of the query point to candidate `b`'s curve). -/
def pickStep (dsqOf : ℕ → ℚ) (spsq : ℚ) (acc : Option ℚ × Option ℕ) (b : ℕ) :
    Option ℚ × Option ℕ :=
  if ltInfB (dsqOf b) acc.1 && decide (dsqOf b < spsq) then (some (dsqOf b), some b)
  else acc

/-- Rust `EntityIndex::pick(dp, sp)`: fold the candidate indices returned by the
spatial index query (their order is the external index's traversal order)
with accumulator `(f64::INFINITY, None)`, then map the winning slot through
`entity_mapping` (`entityOf`). -/
def EntityIndex.pick (dsqOf : ℕ → ℚ) (entityOf : ℕ → ℕ) (cands : List ℕ)
    (sp : ℚ) : Option ℕ :=
  ((cands.foldl (pickStep dsqOf (sp * sp)) (none, none)).2).map entityOf

/-- The candidate that `pick`'s fold keeps, described declaratively: the first
candidate (in query order) whose squared distance is below `spsq`, beats the
incoming accumulator distance `d`, and is minimal among the passing
candidates of the list. -/
def pickPred (dsqOf : ℕ → ℚ) (spsq : ℚ) (d : Option ℚ) (l : List ℕ) (b : ℕ) :
    Bool :=
  decide (dsqOf b < spsq) && ltInfB (dsqOf b) d &&
    decide (∀ c ∈ l, dsqOf c < spsq → dsqOf b ≤ dsqOf c)

lemma pickPred_eq_true {dsqOf : ℕ → ℚ} {spsq : ℚ} {d : Option ℚ} {l : List ℕ}
    {b : ℕ} :
    pickPred dsqOf spsq d l b = true ↔
      dsqOf b < spsq ∧ ltInfB (dsqOf b) d = true ∧
        ∀ c ∈ l, dsqOf c < spsq → dsqOf b ≤ dsqOf c := by
  simp [pickPred, Bool.and_assoc, and_assoc]

lemma find?_congr {p q : ℕ → Bool} :
    ∀ l : List ℕ, (∀ x ∈ l, p x = q x) → l.find? p = l.find? q := by
  intro l
  induction l with
  | nil => intro _; rfl
  | cons a rest ih =>
      intro h
      by_cases hpa : p a = true
      · rw [List.find?_cons_of_pos _ hpa,
          List.find?_cons_of_pos _ (by rw [← h a (by simp)]; exact hpa)]
      · rw [List.find?_cons_of_neg _ hpa,
          List.find?_cons_of_neg _ (by rw [← h a (by simp)]; exact hpa)]
        exact ih fun x hx => h x (by simp [hx])

lemma exists_passing_min (dsqOf : ℕ → ℚ) (spsq : ℚ) :
    ∀ (R : List ℕ) (c0 : ℕ), c0 ∈ R → dsqOf c0 < spsq →
      ∃ c ∈ R, dsqOf c < spsq ∧ ∀ e ∈ R, dsqOf e < spsq → dsqOf c ≤ dsqOf e := by
  intro R
  induction R with
  | nil => intro c0 h; cases h
  | cons a rest ih =>
      intro c0 hc0 hpass
      by_cases hrest : ∃ c1 ∈ rest, dsqOf c1 < spsq
      · obtain ⟨c1, hc1, hp1⟩ := hrest
        obtain ⟨c, hc, hcp, hmin⟩ := ih c1 hc1 hp1
        by_cases hle : dsqOf a < spsq ∧ dsqOf a ≤ dsqOf c
        · refine ⟨a, by simp, hle.1, ?_⟩
          intro e he hep
          rcases List.mem_cons.1 he with rfl | he'
          · exact le_refl _
          · exact le_trans hle.2 (hmin e he' hep)
        · refine ⟨c, by simp [hc], hcp, ?_⟩
          intro e he hep
          rcases List.mem_cons.1 he with rfl | he'
          · by_contra hlt
            push_neg at hlt
            exact hle ⟨hep, le_of_lt hlt⟩
          · exact hmin e he' hep
      · have hc0a : c0 = a := by
          rcases List.mem_cons.1 hc0 with rfl | h
          · rfl
          · exact absurd ⟨c0, h, hpass⟩ hrest
        subst hc0a
        refine ⟨c0, by simp, hpass, ?_⟩
        intro e he hep
        rcases List.mem_cons.1 he with rfl | h
        · exact le_refl _
        · exact absurd ⟨e, h, hep⟩ hrest

/-- Characterization of the pick fold: its winner is the first candidate
satisfying `pickPred` (with the incoming accumulator), or the incoming winner
if there is none. -/
lemma pick_fold_char (dsqOf : ℕ → ℚ) (spsq : ℚ) :
    ∀ (l : List ℕ) (d : Option ℚ) (w : Option ℕ),
      (l.foldl (pickStep dsqOf spsq) (d, w)).2 =
        match l.find? (pickPred dsqOf spsq d l) with
        | some b => some b
        | none => w := by
  intro l
  induction l with
  | nil => intro d w; rfl
  | cons a R ih =>
      intro d w
      simp only [List.foldl_cons]
      by_cases hcond : (ltInfB (dsqOf a) d && decide (dsqOf a < spsq)) = true
      · obtain ⟨hlt, hpass⟩ : ltInfB (dsqOf a) d = true ∧ dsqOf a < spsq := by
          simpa [Bool.and_eq_true] using hcond
        have hstep : pickStep dsqOf spsq (d, w) a = (some (dsqOf a), some a) := by
          unfold pickStep
          rw [if_pos hcond]
        rw [hstep, ih]
        by_cases hA1 : ∀ c ∈ R, dsqOf c < spsq → dsqOf a ≤ dsqOf c
        · have hPa : pickPred dsqOf spsq d (a :: R) a = true := by
            rw [pickPred_eq_true]
            refine ⟨hpass, hlt, ?_⟩
            intro c hc hcp
            rcases List.mem_cons.1 hc with rfl | hc'
            · exact le_refl _
            · exact hA1 c hc' hcp
          rw [List.find?_cons_of_pos _ hPa]
          have hnone : R.find? (pickPred dsqOf spsq (some (dsqOf a)) R) = none := by
            rw [List.find?_eq_none]
            intro c hc hPc
            rw [pickPred_eq_true] at hPc
            obtain ⟨hcp, hclt, _⟩ := hPc
            have h1 : dsqOf c < dsqOf a := by simpa [ltInfB] using hclt
            exact absurd (hA1 c hc hcp) (not_le.2 h1)
          rw [hnone]
        · push_neg at hA1
          obtain ⟨c0, hc0, hc0p, hc0lt⟩ := hA1
          have hPa : pickPred dsqOf spsq d (a :: R) a = false := by
            rcases hp : pickPred dsqOf spsq d (a :: R) a with _ | _
            · rfl
            · rw [pickPred_eq_true] at hp
              exact absurd (hp.2.2 c0 (by simp [hc0]) hc0p) (not_le.2 hc0lt)
          rw [List.find?_cons_of_neg _ (by simp [hPa])]
          have hcongr : R.find? (pickPred dsqOf spsq d (a :: R))
              = R.find? (pickPred dsqOf spsq (some (dsqOf a)) R) := by
            refine find?_congr R ?_
            intro c hc
            rcases hq : pickPred dsqOf spsq (some (dsqOf a)) R c with _ | _
            · rcases hp : pickPred dsqOf spsq d (a :: R) c with _ | _
              · rfl
              · rw [pickPred_eq_true] at hp
                have hlt2 : dsqOf c < dsqOf a :=
                  lt_of_le_of_lt (hp.2.2 c0 (by simp [hc0]) hc0p) hc0lt
                have hqt : pickPred dsqOf spsq (some (dsqOf a)) R c = true := by
                  rw [pickPred_eq_true]
                  exact ⟨hp.1, by simpa [ltInfB] using hlt2,
                    fun e he hep => hp.2.2 e (by simp [he]) hep⟩
                rw [hqt] at hq
                cases hq
            · rw [pickPred_eq_true] at hq
              have hlt2 : dsqOf c < dsqOf a := by simpa [ltInfB] using hq.2.1
              have hpt : pickPred dsqOf spsq d (a :: R) c = true := by
                rw [pickPred_eq_true]
                refine ⟨hq.1, ?_, ?_⟩
                · rcases d with _ | dv
                  · rfl
                  · have hav : dsqOf a < dv := by simpa [ltInfB] using hlt
                    simpa [ltInfB] using lt_trans hlt2 hav
                · intro e he hep
                  rcases List.mem_cons.1 he with rfl | he'
                  · exact le_of_lt hlt2
                  · exact hq.2.2 e he' hep
              rw [hpt]
          rw [hcongr]
          obtain ⟨cm, hcm, hcmp, hcmmin⟩ := exists_passing_min dsqOf spsq R c0 hc0 hc0p
          have hPcm : pickPred dsqOf spsq (some (dsqOf a)) R cm = true := by
            rw [pickPred_eq_true]
            exact ⟨hcmp,
              by simpa [ltInfB] using lt_of_le_of_lt (hcmmin c0 hc0 hc0p) hc0lt,
              hcmmin⟩
          obtain ⟨r, hr⟩ :=
            Option.isSome_iff_exists.1 (List.find?_isSome.2 ⟨cm, hcm, hPcm⟩)
          rw [hr]
      · have hPa : pickPred dsqOf spsq d (a :: R) a = false := by
          rcases hfalse : pickPred dsqOf spsq d (a :: R) a with _ | _
          · rfl
          · rw [pickPred_eq_true] at hfalse
            exact absurd (by simp [Bool.and_eq_true, hfalse.2.1, hfalse.1] :
              (ltInfB (dsqOf a) d && decide (dsqOf a < spsq)) = true) hcond
        have hstep : pickStep dsqOf spsq (d, w) a = (d, w) := by
          unfold pickStep
          rw [if_neg (by simp [hcond])]
        rw [hstep, ih, List.find?_cons_of_neg _ (by simp [hPa])]
        have hcongr : R.find? (pickPred dsqOf spsq d (a :: R))
            = R.find? (pickPred dsqOf spsq d R) := by
          refine find?_congr R ?_
          intro c hc
          rcases hq : pickPred dsqOf spsq d R c with _ | _
          · rcases hp : pickPred dsqOf spsq d (a :: R) c with _ | _
            · rfl
            · rw [pickPred_eq_true] at hp
              have : pickPred dsqOf spsq d R c = true := by
                rw [pickPred_eq_true]
                exact ⟨hp.1, hp.2.1, fun e he hep => hp.2.2 e (by simp [he]) hep⟩
              rw [this] at hq
              cases hq
          · rw [pickPred_eq_true] at hq
            rw [show pickPred dsqOf spsq d (a :: R) c = true from ?_]
            · rw [pickPred_eq_true]
              refine ⟨hq.1, hq.2.1, ?_⟩
              intro e he hep
              rcases List.mem_cons.1 he with rfl | he'
              · by_cases hpa : ltInfB (dsqOf c) d = true
                · rcases d with _ | dv
                  · exact absurd (by simp [ltInfB, hep] :
                      (ltInfB (dsqOf e) none && decide (dsqOf e < spsq)) = true) hcond
                  · have h1 : dsqOf c < dv := by simpa [ltInfB] using hq.2.1
                    have h2 : ¬ dsqOf e < dv := by
                      intro h3
                      exact hcond (by simp [ltInfB, h3, hep])
                    push_neg at h2
                    exact le_trans (le_of_lt h1) h2
                · exact absurd hq.2.1 hpa
              · exact hq.2.2 e he' hep
        rw [hcongr]

/-- The amended pick contract, written from the spec's words as corrected:
return the entity of the first candidate in query order whose exact squared
distance is below the squared radius and minimal among all such candidates;
`none` when no candidate is below the radius. -/
def pickFirstMin (dsqOf : ℕ → ℚ) (entityOf : ℕ → ℕ) (cands : List ℕ) (sp : ℚ) :
    Option ℕ :=
  (cands.find? fun b =>
      decide (dsqOf b < sp * sp) &&
        decide (∀ c ∈ cands, dsqOf c < sp * sp → dsqOf b ≤ dsqOf c)).map entityOf

/-- C3 (amended): `EntityIndex::pick` computes each candidate's exact squared
distance, returns `none` when no candidate's squared distance is below the
squared radius, and otherwise returns the entity handle of the candidate with
minimal squared distance — on exact ties the candidate that comes FIRST in
the spatial-index query order, not the later-inserted one. -/
theorem pick_returns_first_minimal_candidate (dsqOf : ℕ → ℚ) (entityOf : ℕ → ℕ)
    (cands : List ℕ) (sp : ℚ) :
    EntityIndex.pick dsqOf entityOf cands sp
      = pickFirstMin dsqOf entityOf cands sp := by
  unfold EntityIndex.pick pickFirstMin
  rw [pick_fold_char]
  have hcongr : cands.find? (pickPred dsqOf (sp * sp) none cands)
      = cands.find? fun b =>
          decide (dsqOf b < sp * sp) &&
            decide (∀ c ∈ cands, dsqOf c < sp * sp → dsqOf b ≤ dsqOf c) := by
    refine find?_congr cands ?_
    intro x _
    simp [pickPred, ltInfB]
  rw [hcongr]
  rcases hfind : cands.find? fun b =>
      decide (dsqOf b < sp * sp) &&
        decide (∀ c ∈ cands, dsqOf c < sp * sp → dsqOf b ≤ dsqOf c) with _ | b
  · rfl
  · rfl

/-- C3 counterexample to the tie rule as claimed: two candidates at exactly
the same (zero) squared distance, in ascending query order; slot 1 is the
later-inserted (topmost) one mapping to entity 20, but `pick` keeps the first
candidate and returns entity 10 — the fold replaces the winner only on a
strictly smaller distance. -/
theorem pick_tie_prefers_first_counterexample :
    EntityIndex.pick (fun _ => 0) (fun i => 10 * (i + 1)) [0, 1] 1 = some 10
    ∧ (10 : ℕ) ≠ 20 := by
  constructor
  · unfold EntityIndex.pick
    rw [show (1 : ℚ) * 1 = 1 from mul_one 1]
    decide
  · decide
